import Mathlib

/-!
Shallow embedding of the `smart_custom` extraction strategy from
`src/extract/strategy_smart_custom.cpp` (namespace `strategy_smart_custom`).

Element ID sets (`osmium::index::IdSetDense`) are modelled as duplicate-free
lists of naturals with `idget` (membership test) and `setId` (add if absent).
The relation graph built by `RelationsMapStash` is a list of
(parent-relation-id, member-relation-id) edges.  Regions (`extract_data`,
combining `Extract`'s injected predicates with `Data`'s six ID sets and the
output sink) are the `ExtractData` structure below.
-/

namespace StrategySmartCustom

/-- Kinds of OSM elements (`osmium::item_type`, restricted to the three kinds
the strategy handles). -/
inductive ItemType where
  | node
  | way
  | relation
  deriving DecidableEq, Repr

/-- One member entry of a relation: its type and referenced ID
(`member.type()` and `member.positive_ref()`). -/
structure Member where
  mtype : ItemType
  ref : Nat
  deriving DecidableEq, Repr

/-- A node (point): its ID and its location, the latter abstracted to a
natural number consumed only by the region's containment predicate. -/
structure Node where
  id : Nat
  loc : Nat
  deriving DecidableEq, Repr

/-- A way: its ID, ordered node references and tags. -/
structure Way where
  id : Nat
  nodes : List Nat
  tags : List (String × String)
  deriving DecidableEq, Repr

/-- A relation: its ID, ordered typed members and tags. -/
structure Relation where
  id : Nat
  members : List Member
  tags : List (String × String)
  deriving DecidableEq, Repr

/-- An element of the input stream (tagged union over the three kinds). -/
inductive Element where
  | node (n : Node)
  | way (w : Way)
  | relation (r : Relation)
  deriving DecidableEq, Repr

/-- ID-set membership test (`IdSet::get`). -/
def idget (s : List Nat) (x : Nat) : Bool :=
  decide (x ∈ s)

/-- ID-set insertion (`IdSet::set`); a no-op when the ID is already present. -/
def setId (s : List Nat) (x : Nat) : List Nat :=
  if x ∈ s then s else s.concat x

/-- One tag rule of a `TagsFilter`: plain key, or key/value pair
(`osmium::TagMatcher`). -/
inductive TagRule where
  | keyOnly (k : String)
  | keyValue (k : String) (v : String)
  deriving DecidableEq, Repr

/-- Whether a single tag matches a rule. -/
def ruleMatches (r : TagRule) (t : String × String) : Bool :=
  match r with
  | TagRule.keyOnly k => t.1 = k
  | TagRule.keyValue k v => t.1 = k && t.2 = v

/-- The `osmium::tags::match_any_of` test against a filter whose rules were
all added with result `true` and whose default result is `false`: true iff
some tag matches some rule. -/
def matchesAny (rules : List TagRule) (tags : List (String × String)) : Bool :=
  tags.any (fun t => rules.any (fun r => ruleMatches r t))

/-- The strategy configuration (`Strategy`'s fields): the `relations` filter,
the `relation-system` filter and the `by-first-node` flag. -/
structure Strategy where
  m_relation_filter : List TagRule
  m_relation_system_filter : List TagRule
  m_by_first_node : Bool

/-- `Strategy::is_relevant_relation`: the relation's tags match the
`relations` filter. -/
def is_relevant_relation (strat : Strategy) (r : Relation) : Bool :=
  matchesAny strat.m_relation_filter r.tags

/-- `Strategy::is_part_of_relevant_relation_system`: the relation's tags match
the `relation-system` filter. -/
def is_part_of_relevant_relation_system (strat : Strategy) (r : Relation) : Bool :=
  matchesAny strat.m_relation_system_filter r.tags

/-- Per-region state (`extract_data`): the region's injected predicates
(containment test and the two tag predicates), the six membership ID sets of
`Data`, and the output sink modelled as the list of elements written so far. -/
structure ExtractData where
  contains : Nat → Bool
  has_conflicting_tags : List (String × String) → Bool
  has_matching_tags : List (String × String) → Bool
  node_ids : List Nat
  extra_node_ids : List Nat
  way_ids : List Nat
  extra_way_ids : List Nat
  relation_ids : List Nat
  extra_relation_ids : List Nat
  output : List Element

/-- One step of `Data::add_relation_members`'s loop: a node member absent
from `node_ids` goes to `extra_node_ids`, a way member absent from `way_ids`
goes to `extra_way_ids`, relation members are ignored. -/
def memberStep (st : ExtractData) (m : Member) : ExtractData :=
  match m.mtype with
  | ItemType.node =>
    if idget st.node_ids m.ref then st
    else { st with extra_node_ids := setId st.extra_node_ids m.ref }
  | ItemType.way =>
    if idget st.way_ids m.ref then st
    else { st with extra_way_ids := setId st.extra_way_ids m.ref }
  | ItemType.relation => st

/-- `Data::add_relation_members`: fold `memberStep` over the relation's
members. -/
def add_relation_members (st : ExtractData) (r : Relation) : ExtractData :=
  r.members.foldl memberStep st

/-- Support of the relation graph: every ID occurring in an edge. -/
def gsupport (g : List (Nat × Nat)) : List Nat :=
  g.map Prod.fst ++ g.map Prod.snd

/-- Neighbors of a relation ID in the graph, parents first then members,
mirroring `queue_relations` (`member_to_parent` lookup followed by
`parent_to_member` lookup). -/
def nbrs (g : List (Nat × Nat)) (id : Nat) : List Nat :=
  ((g.filter (fun e => e.2 == id)).map Prod.fst) ++
    ((g.filter (fun e => e.1 == id)).map Prod.snd)

/-- Initial work queue of `Data::add_relation_network`: the neighbors of every
primarily-included relation, in order. -/
def initialQueue (g : List (Nat × Nat)) : List Nat → List Nat
  | [] => []
  | p :: ps => nbrs g p ++ initialQueue g ps

/-- Result of the BFS while-loop of `Data::add_relation_network`: the final
extra set, plus (as instrumentation) the list of IDs expanded (added to the
extra set, with their neighbors enqueued) and the list of IDs pushed onto the
queue during the loop, both in order of occurrence. -/
structure BfsRes where
  extra : List Nat
  expanded : List Nat
  pushed : List Nat
  deriving DecidableEq, Repr

theorem nbrs_length_le (g : List (Nat × Nat)) (id : Nat) :
    (nbrs g id).length ≤ 2 * g.length := by
  unfold nbrs
  have h1 := List.length_filter_le (fun e : Nat × Nat => e.2 == id) g
  have h2 := List.length_filter_le (fun e : Nat × Nat => e.1 == id) g
  simp only [List.length_append, List.length_map]
  omega

theorem mem_nbrs_support {g : List (Nat × Nat)} {x id : Nat}
    (h : x ∈ nbrs g id) : x ∈ gsupport g := by
  unfold nbrs at h
  unfold gsupport
  rcases List.mem_append.1 h with h' | h'
  · rcases List.mem_map.1 h' with ⟨e, he, rfl⟩
    exact List.mem_append.2 (Or.inl (List.mem_map.2 ⟨e, (List.mem_filter.1 he).1, rfl⟩))
  · rcases List.mem_map.1 h' with ⟨e, he, rfl⟩
    exact List.mem_append.2 (Or.inr (List.mem_map.2 ⟨e, (List.mem_filter.1 he).1, rfl⟩))

theorem bfs_measure_expand (g : List (Nat × Nat)) (a : Nat) (rest extra : List Nat)
    (hid : a ∉ extra) :
    (2 * g.length + 2) * (((gsupport g ++ (rest ++ nbrs g a)).toFinset \
      (a :: extra).toFinset).card) + (rest ++ nbrs g a).length <
    (2 * g.length + 2) * (((gsupport g ++ (a :: rest)).toFinset \
      extra.toFinset).card) + (a :: rest).length := by
  have hsub : (gsupport g ++ (rest ++ nbrs g a)).toFinset \ (a :: extra).toFinset ⊆
      ((gsupport g ++ (a :: rest)).toFinset \ extra.toFinset).erase a := by
    intro x hx
    rcases Finset.mem_sdiff.1 hx with ⟨hx1, hx2⟩
    simp only [List.toFinset_cons, Finset.mem_insert] at hx2
    push_neg at hx2
    apply Finset.mem_erase.2
    refine ⟨hx2.1, Finset.mem_sdiff.2 ⟨?_, by simp [hx2.2]⟩⟩
    simp only [List.mem_toFinset, List.mem_append] at hx1 ⊢
    rcases hx1 with h' | h'
    · exact Or.inl h'
    · rcases h' with h'' | h''
      · exact Or.inr (List.mem_cons_of_mem _ h'')
      · exact Or.inl (mem_nbrs_support h'')
  have hidmem : a ∈ (gsupport g ++ (a :: rest)).toFinset \ extra.toFinset := by
    simp [List.mem_toFinset, hid]
  have hcard : ((gsupport g ++ (rest ++ nbrs g a)).toFinset \ (a :: extra).toFinset).card <
      ((gsupport g ++ (a :: rest)).toFinset \ extra.toFinset).card :=
    lt_of_le_of_lt (Finset.card_le_card hsub) (Finset.card_erase_lt_of_mem hidmem)
  have hnl := nbrs_length_le g a
  have hmul : (2 * g.length + 2) *
      (((gsupport g ++ (rest ++ nbrs g a)).toFinset \ (a :: extra).toFinset).card + 1) ≤
      (2 * g.length + 2) *
      (((gsupport g ++ (a :: rest)).toFinset \ extra.toFinset).card) :=
    Nat.mul_le_mul le_rfl hcard
  have hdistrib : (2 * g.length + 2) *
      (((gsupport g ++ (rest ++ nbrs g a)).toFinset \ (a :: extra).toFinset).card + 1) =
      (2 * g.length + 2) *
      (((gsupport g ++ (rest ++ nbrs g a)).toFinset \ (a :: extra).toFinset).card) +
      (2 * g.length + 2) := by ring
  simp only [List.length_append, List.length_cons]
  omega

theorem bfs_measure_skip (g : List (Nat × Nat)) (a : Nat) (rest extra : List Nat) :
    (2 * g.length + 2) * (((gsupport g ++ rest).toFinset \ extra.toFinset).card) +
      rest.length <
    (2 * g.length + 2) * (((gsupport g ++ (a :: rest)).toFinset \ extra.toFinset).card) +
      (a :: rest).length := by
  have hsub : (gsupport g ++ rest).toFinset \ extra.toFinset ⊆
      (gsupport g ++ (a :: rest)).toFinset \ extra.toFinset := by
    intro x hx
    rcases Finset.mem_sdiff.1 hx with ⟨hx1, hx2⟩
    refine Finset.mem_sdiff.2 ⟨?_, hx2⟩
    simp only [List.mem_toFinset, List.mem_append] at hx1 ⊢
    rcases hx1 with h' | h'
    · exact Or.inl h'
    · exact Or.inr (List.mem_cons_of_mem _ h')
  have hcard := Finset.card_le_card hsub
  have hmul := Nat.mul_le_mul (le_refl (2 * g.length + 2)) hcard
  simp only [List.length_cons]
  omega

/-- The while loop of `Data::add_relation_network`: pop the front ID; if it is
in neither the primary nor the extra relation set, add it to the extra set
and enqueue its neighbors; otherwise skip it.  Terminates because each
expansion strictly shrinks the set of graph-support IDs outside the extra
set, and each skip shrinks the queue. -/
def bfsAux (g : List (Nat × Nat)) (prim : List Nat) (q extra : List Nat) : BfsRes :=
  match q with
  | [] => ⟨extra, [], []⟩
  | id :: rest =>
    if h : (!(idget prim id) && !(idget extra id)) = true then
      let r := bfsAux g prim (rest ++ nbrs g id) (id :: extra)
      ⟨r.extra, id :: r.expanded, nbrs g id ++ r.pushed⟩
    else
      bfsAux g prim rest extra
termination_by (2 * g.length + 2) * (((gsupport g ++ q).toFinset \ extra.toFinset).card) + q.length
decreasing_by
  · apply bfs_measure_expand
    simp only [idget, Bool.and_eq_true, Bool.not_eq_true', decide_eq_false_iff_not] at h
    exact h.2
  · apply bfs_measure_skip

/-- `Data::add_relation_network`: seed the queue with the neighbors of every
relation in `relation_ids`, run the BFS loop, and store the resulting extra
relation set. -/
def add_relation_network (g : List (Nat × Nat)) (st : ExtractData) : ExtractData :=
  { st with extra_relation_ids :=
      (bfsAux g st.relation_ids (initialQueue g st.relation_ids) st.extra_relation_ids).extra }

/-- Fuel-indexed mirror of the BFS while-loop, one unit of fuel per loop
iteration; `none` means the fuel ran out before the queue drained. -/
def bfsFuel (g : List (Nat × Nat)) (prim : List Nat) :
    Nat → List Nat → List Nat → Option BfsRes
  | _, [], extra => some ⟨extra, [], []⟩
  | 0, _ :: _, _ => none
  | fuel + 1, id :: rest, extra =>
    if (!(idget prim id) && !(idget extra id)) = true then
      match bfsFuel g prim fuel (rest ++ nbrs g id) (id :: extra) with
      | none => none
      | some r => some ⟨r.extra, id :: r.expanded, nbrs g id ++ r.pushed⟩
    else
      bfsFuel g prim fuel rest extra

/-- The full enqueue trace of one `add_relation_network` run: the IDs pushed
while seeding the queue from `relation_ids`, followed by the IDs pushed
during the while loop, in order. -/
def networkEnqueueTrace (g : List (Nat × Nat)) (st : ExtractData) : List Nat :=
  initialQueue g st.relation_ids ++
    (bfsAux g st.relation_ids (initialQueue g st.relation_ids) st.extra_relation_ids).pushed

/-- `Pass1::enode` per-region callback: a node whose location the region
contains is added to the primary node set. -/
def pass1_enode (st : ExtractData) (n : Node) : ExtractData :=
  if st.contains n.loc then { st with node_ids := setId st.node_ids n.id } else st

/-- Inner loop shared by way handling: add every node reference that is not
in the primary node set to the extra node set. -/
def addExtraNodes (prim extra : List Nat) (refs : List Nat) : List Nat :=
  refs.foldl (fun acc n => if idget prim n then acc else setId acc n) extra

/-- The scan of `Pass1::eway`'s disabled-heuristic branch: find the first node
reference in the primary node set; on success include the way and pull in all
its non-primary node references, then stop. -/
def ewayFindLoop (st : ExtractData) (w : Way) : List Nat → ExtractData
  | [] => st
  | n :: rest =>
    if idget st.node_ids n then
      { st with way_ids := setId st.way_ids w.id,
                extra_node_ids := addExtraNodes st.node_ids st.extra_node_ids w.nodes }
    else ewayFindLoop st w rest

/-- `Pass1::eway` per-region callback.  With `by-first-node` enabled the way
is included iff (its first node is primary and its tags are not conflicting)
or its tags are matching; the C++ `way.nodes().front()` presupposes a
non-empty node list, so the empty case (undefined behavior in the source) is
modelled as leaving the state unchanged.  With the heuristic disabled the way
is included on the first primary node reference found. -/
def pass1_eway (strat : Strategy) (st : ExtractData) (w : Way) : ExtractData :=
  if strat.m_by_first_node then
    match w.nodes.head? with
    | none => st
    | some first =>
      if (idget st.node_ids first && !(st.has_conflicting_tags w.tags)) ||
          st.has_matching_tags w.tags then
        { st with way_ids := setId st.way_ids w.id,
                  extra_node_ids := addExtraNodes st.node_ids st.extra_node_ids w.nodes }
      else st
  else
    ewayFindLoop st w w.nodes

/-- The member scan of `Pass1::erelation`: on the first node member in the
primary node set or way member in the primary way set, include the relation,
pull in its members when it is individually relevant or part of a relevant
system, and stop; other members are skipped. -/
def erelationLoop (strat : Strategy) (st : ExtractData) (r : Relation) :
    List Member → ExtractData
  | [] => st
  | m :: rest =>
    match m.mtype with
    | ItemType.node =>
      if idget st.node_ids m.ref then
        let st1 := { st with relation_ids := setId st.relation_ids r.id }
        if is_relevant_relation strat r || is_part_of_relevant_relation_system strat r then
          add_relation_members st1 r
        else st1
      else erelationLoop strat st r rest
    | ItemType.way =>
      if idget st.way_ids m.ref then
        let st1 := { st with relation_ids := setId st.relation_ids r.id }
        if is_relevant_relation strat r || is_part_of_relevant_relation_system strat r then
          add_relation_members st1 r
        else st1
      else erelationLoop strat st r rest
    | ItemType.relation => erelationLoop strat st r rest

/-- `Pass1::erelation` per-region callback. -/
def pass1_erelation (strat : Strategy) (st : ExtractData) (r : Relation) : ExtractData :=
  erelationLoop strat st r r.members

/-- Edges contributed by one relation to the `RelationsMapStash`: one
(parent, member) pair per relation-type member. -/
def relationEdges (r : Relation) : List (Nat × Nat) :=
  r.members.foldr
    (fun m acc => match m.mtype with
      | ItemType.relation => (r.id, m.ref) :: acc
      | _ => acc) []

/-- The relation graph accumulated during pass 1 (`Pass1::relation`): only
relations that are part of a relevant relation system contribute edges. -/
def relGraphOf (strat : Strategy) : List Relation → List (Nat × Nat)
  | [] => []
  | r :: rest =>
    (if is_part_of_relevant_relation_system strat r then relationEdges r else []) ++
      relGraphOf strat rest

/-- `Pass2::erelation` per-region callback: a relation in the extra relation
set that is part of a relevant relation system has its members pulled in. -/
def pass2_erelation (strat : Strategy) (st : ExtractData) (r : Relation) : ExtractData :=
  if idget st.extra_relation_ids r.id && is_part_of_relevant_relation_system strat r then
    add_relation_members st r
  else st

/-- `Pass3::eway` per-region callback: a way in the extra way set has every
non-primary node reference added to the extra node set. -/
def pass3_eway (st : ExtractData) (w : Way) : ExtractData :=
  if idget st.extra_way_ids w.id then
    { st with extra_node_ids := addExtraNodes st.node_ids st.extra_node_ids w.nodes }
  else st

/-- Whether `Pass4` writes an element for a region: its ID is in the primary
or the extra set for its type. -/
def pass4_selected (st : ExtractData) (el : Element) : Bool :=
  match el with
  | Element.node n => idget st.node_ids n.id || idget st.extra_node_ids n.id
  | Element.way w => idget st.way_ids w.id || idget st.extra_way_ids w.id
  | Element.relation r => idget st.relation_ids r.id || idget st.extra_relation_ids r.id

/-- One `Pass4` callback (`enode`, `eway` or `erelation` depending on the
element's kind): write the element iff it is selected. -/
def pass4_step (st : ExtractData) (el : Element) : ExtractData :=
  if pass4_selected st el then { st with output := st.output.concat el } else st

/-- One full pass-4 scan for one region. -/
def pass4_run (st : ExtractData) (input : List Element) : ExtractData :=
  input.foldl pass4_step st

/-- The input dataset: all nodes, then all ways, then all relations. -/
structure InputData where
  nodes : List Node
  ways : List Way
  relations : List Relation

/-- The node phase of scan 1 for one region. -/
def scan1_nodes (st : ExtractData) (input : InputData) : ExtractData :=
  input.nodes.foldl pass1_enode st

/-- The way phase of scan 1 for one region. -/
def scan1_ways (strat : Strategy) (st : ExtractData) (input : InputData) : ExtractData :=
  input.ways.foldl (pass1_eway strat) st

/-- The relation phase of scan 1 for one region. -/
def scan1_relations (strat : Strategy) (st : ExtractData) (input : InputData) : ExtractData :=
  input.relations.foldl (pass1_erelation strat) st

/-- Scan 1 for one region: nodes, then ways, then relations. -/
def pass1_run (strat : Strategy) (input : InputData) (st : ExtractData) : ExtractData :=
  scan1_relations strat (scan1_ways strat (scan1_nodes st input) input) input

/-- Scan 2 for one region: the relation-only pass. -/
def pass2_run (strat : Strategy) (input : InputData) (st : ExtractData) : ExtractData :=
  input.relations.foldl (pass2_erelation strat) st

/-- Scan 3 for one region: the way-only pass. -/
def pass3_run (input : InputData) (st : ExtractData) : ExtractData :=
  input.ways.foldl pass3_eway st

/-- The element stream in input order: nodes, then ways, then relations. -/
def elementsOf (input : InputData) : List Element :=
  input.nodes.map Element.node ++ input.ways.map Element.way ++
    input.relations.map Element.relation

/-- `Strategy::run`: reject an empty input file name (standard input) before
pass 1 with an unrecoverable error, leaving the extracts untouched;
otherwise run pass 1, freeze the relation graph, compute the relation
network closure per region, run passes 2 and 3 only when some region has a
non-empty extra relation set (respectively extra way set), and run pass 4. -/
def runStrategy (filename : String) (strat : Strategy) (extracts : List ExtractData)
    (input : InputData) : Option String × List ExtractData :=
  if filename = "" then
    (some "Can not read from STDIN when using 'smart_custom' strategy.", extracts)
  else
    let afterP1 := extracts.map (pass1_run strat input)
    let g := relGraphOf strat input.relations
    let afterClosure := afterP1.map (add_relation_network g)
    let afterP2 :=
      if afterClosure.any (fun e => !(e.extra_relation_ids.isEmpty)) then
        afterClosure.map (pass2_run strat input)
      else afterClosure
    let afterP3 :=
      if afterP2.any (fun e => !(e.extra_way_ids.isEmpty)) then
        afterP2.map (pass3_run input)
      else afterP2
    (none, afterP3.map (fun e => pass4_run e (elementsOf input)))


theorem idget_iff {s : List Nat} {x : Nat} : idget s x = true ↔ x ∈ s := by
  simp [idget]

theorem mem_setId {s : List Nat} {x y : Nat} : y ∈ setId s x ↔ y = x ∨ y ∈ s := by
  unfold setId
  by_cases h : x ∈ s
  · simp only [h, if_true]
    constructor
    · exact Or.inr
    · rintro (rfl | hy) <;> assumption
  · simp [h, List.concat_eq_append, or_comm]

theorem bfs_extra_mono (g : List (Nat × Nat)) (prim : List Nat) :
    ∀ q extra, ∀ x ∈ extra, x ∈ (bfsAux g prim q extra).extra := by
  intro q extra
  induction q, extra using bfsAux.induct g prim with
  | case1 extra => intro x hx; rw [bfsAux]; exact hx
  | case2 extra id rest h ih =>
    intro x hx
    rw [bfsAux]
    simp only [h, dite_true]
    exact ih x (List.mem_cons_of_mem _ hx)
  | case3 extra id rest h ih =>
    intro x hx
    rw [bfsAux]
    simp only [h, dite_false]
    exact ih x hx

theorem bfs_absorb (g : List (Nat × Nat)) (prim : List Nat) :
    ∀ q extra, ∀ x ∈ q, idget prim x = true ∨ x ∈ (bfsAux g prim q extra).extra := by
  intro q extra
  induction q, extra using bfsAux.induct g prim with
  | case1 extra => intro x hx; cases hx
  | case2 extra id rest h ih =>
    intro x hx
    rw [bfsAux]
    simp only [h, dite_true]
    rcases List.mem_cons.1 hx with rfl | hx'
    · exact Or.inr (bfs_extra_mono g prim _ _ x (List.mem_cons_self _ _))
    · exact ih x (List.mem_append.2 (Or.inl hx'))
  | case3 extra id rest h ih =>
    intro x hx
    rw [bfsAux]
    simp only [h, dite_false]
    rcases List.mem_cons.1 hx with rfl | hx'
    · by_cases h1 : idget prim x = true
      · exact Or.inl h1
      · simp only [Bool.not_eq_true] at h1
        simp only [h1, Bool.not_false, Bool.true_and, Bool.not_eq_true'] at h
        rw [Bool.not_eq_false] at h
        exact Or.inr (bfs_extra_mono g prim _ _ x (idget_iff.1 h))
    · exact ih x hx'


theorem bfs_extra_eq (g : List (Nat × Nat)) (prim : List Nat) :
    ∀ q extra, (bfsAux g prim q extra).extra =
      (bfsAux g prim q extra).expanded.reverse ++ extra := by
  intro q extra
  induction q, extra using bfsAux.induct g prim with
  | case1 extra => rw [bfsAux]; simp
  | case2 extra id rest h ih =>
    rw [bfsAux]
    simp only [h, dite_true, List.reverse_cons, List.append_assoc, List.singleton_append]
    exact ih
  | case3 extra id rest h ih =>
    rw [bfsAux]
    simp only [h, dite_false]
    exact ih

theorem bfs_expanded_fresh (g : List (Nat × Nat)) (prim : List Nat) :
    ∀ q extra, ∀ x ∈ (bfsAux g prim q extra).expanded,
      x ∉ extra ∧ idget prim x = false := by
  intro q extra
  induction q, extra using bfsAux.induct g prim with
  | case1 extra => intro x hx; rw [bfsAux] at hx; cases hx
  | case2 extra id rest h ih =>
    intro x hx
    rw [bfsAux] at hx
    simp only [h, dite_true] at hx
    simp only [Bool.and_eq_true, Bool.not_eq_true'] at h
    rcases List.mem_cons.1 hx with rfl | hx'
    · exact ⟨fun hc => by simp [idget_iff.2 hc] at h, h.1⟩
    · have := ih x hx'
      exact ⟨fun hc => this.1 (List.mem_cons_of_mem _ hc), this.2⟩
  | case3 extra id rest h ih =>
    intro x hx
    rw [bfsAux] at hx
    simp only [h, dite_false] at hx
    exact ih x hx

theorem bfs_expanded_nodup (g : List (Nat × Nat)) (prim : List Nat) :
    ∀ q extra, (bfsAux g prim q extra).expanded.Nodup := by
  intro q extra
  induction q, extra using bfsAux.induct g prim with
  | case1 extra => rw [bfsAux]; exact List.nodup_nil
  | case2 extra id rest h ih =>
    rw [bfsAux]
    simp only [h, dite_true]
    refine List.nodup_cons.2 ⟨?_, ih⟩
    intro hc
    exact (bfs_expanded_fresh g prim _ _ id hc).1 (List.mem_cons_self _ _)
  | case3 extra id rest h ih =>
    rw [bfsAux]
    simp only [h, dite_false]
    exact ih

theorem bfs_closed (g : List (Nat × Nat)) (prim : List Nat) :
    ∀ q extra, ∀ x ∈ (bfsAux g prim q extra).extra, x ∈ extra ∨
      ∀ y ∈ nbrs g x, idget prim y = true ∨ y ∈ (bfsAux g prim q extra).extra := by
  intro q extra
  induction q, extra using bfsAux.induct g prim with
  | case1 extra =>
    intro x hx
    rw [bfsAux] at hx ⊢
    exact Or.inl hx
  | case2 extra id rest h ih =>
    intro x hx
    rw [bfsAux] at hx ⊢
    simp only [h, dite_true] at hx ⊢
    rcases ih x hx with hmem | hclosed
    · rcases List.mem_cons.1 hmem with rfl | hx'
      · right
        intro y hy
        exact bfs_absorb g prim _ _ y (List.mem_append.2 (Or.inr hy))
      · exact Or.inl hx'
    · exact Or.inr hclosed
  | case3 extra id rest h ih =>
    intro x hx
    rw [bfsAux] at hx ⊢
    simp only [h, dite_false] at hx ⊢
    exact ih x hx

theorem bfs_skip_all (g : List (Nat × Nat)) (prim : List Nat) :
    ∀ q extra, (∀ x ∈ q, idget prim x = true ∨ idget extra x = true) →
      bfsAux g prim q extra = ⟨extra, [], []⟩ := by
  intro q extra
  induction q, extra using bfsAux.induct g prim with
  | case1 extra => intro _; rw [bfsAux]
  | case2 extra id rest h ih =>
    intro hall
    exfalso
    simp only [Bool.and_eq_true, Bool.not_eq_true'] at h
    rcases hall id (List.mem_cons_self _ _) with h1 | h1
    · rw [h.1] at h1; cases h1
    · rw [h.2] at h1; cases h1
  | case3 extra id rest h ih =>
    intro hall
    rw [bfsAux]
    simp only [h, dite_false]
    exact ih (fun x hx => hall x (List.mem_cons_of_mem _ hx))

theorem bfsFuel_sound (g : List (Nat × Nat)) (prim : List Nat) :
    ∀ fuel q extra r, bfsFuel g prim fuel q extra = some r →
      bfsAux g prim q extra = r := by
  intro fuel
  induction fuel with
  | zero =>
    intro q extra r hr
    match q with
    | [] =>
      rw [bfsFuel] at hr
      rw [bfsAux]
      exact Option.some.inj hr
    | _ :: _ => rw [bfsFuel] at hr; cases hr
  | succ fuel ih =>
    intro q extra r hr
    match q with
    | [] =>
      rw [bfsFuel] at hr
      rw [bfsAux]
      exact Option.some.inj hr
    | id :: rest =>
      rw [bfsFuel] at hr
      rw [bfsAux]
      by_cases h : (!(idget prim id) && !(idget extra id)) = true
      · simp only [h, if_true, dite_true] at hr ⊢
        match hrec : bfsFuel g prim fuel (rest ++ nbrs g id) (id :: extra) with
        | none => rw [hrec] at hr; cases hr
        | some r' =>
          rw [hrec] at hr
          rw [ih _ _ _ hrec]
          exact Option.some.inj hr
      · simp only [h, if_false, dite_false] at hr ⊢
        exact ih _ _ _ hr

theorem bfs_exists_fuel (g : List (Nat × Nat)) (prim : List Nat) :
    ∀ q extra, ∃ fuel, bfsFuel g prim fuel q extra =
      some (bfsAux g prim q extra) := by
  intro q extra
  induction q, extra using bfsAux.induct g prim with
  | case1 extra => exact ⟨0, by rw [bfsFuel, bfsAux]⟩
  | case2 extra id rest h ih =>
    rcases ih with ⟨fuel, hf⟩
    refine ⟨fuel + 1, ?_⟩
    rw [bfsFuel, bfsAux]
    simp only [h, if_true, dite_true, hf]
  | case3 extra id rest h ih =>
    rcases ih with ⟨fuel, hf⟩
    refine ⟨fuel + 1, ?_⟩
    rw [bfsFuel, bfsAux]
    simp only [h, if_false, dite_false]
    exact hf

theorem mem_nbrs_iff {g : List (Nat × Nat)} {x y : Nat} :
    y ∈ nbrs g x ↔ (y, x) ∈ g ∨ (x, y) ∈ g := by
  unfold nbrs
  simp only [List.mem_append, List.mem_map, List.mem_filter, beq_iff_eq]
  constructor
  · rintro (⟨e, ⟨he, h2⟩, rfl⟩ | ⟨e, ⟨he, h1⟩, rfl⟩)
    · left
      have : e = (e.1, x) := by rw [← h2]
      rwa [← this]
    · right
      have : e = (x, e.2) := by rw [← h1]
      rwa [← this]
  · rintro (h | h)
    · exact Or.inl ⟨(y, x), ⟨h, rfl⟩, rfl⟩
    · exact Or.inr ⟨(x, y), ⟨h, rfl⟩, rfl⟩

theorem nbrs_symm {g : List (Nat × Nat)} {x y : Nat} (h : y ∈ nbrs g x) :
    x ∈ nbrs g y := by
  rw [mem_nbrs_iff] at h ⊢
  exact h.symm

theorem mem_initialQueue {g : List (Nat × Nat)} {x : Nat} :
    ∀ {prim : List Nat}, (x ∈ initialQueue g prim ↔ ∃ p ∈ prim, x ∈ nbrs g p) := by
  intro prim
  induction prim with
  | nil => simp [initialQueue]
  | cons p ps ih =>
    simp only [initialQueue, List.mem_append, ih, List.mem_cons]
    constructor
    · rintro (h | ⟨p', hp', hx⟩)
      · exact ⟨p, Or.inl rfl, h⟩
      · exact ⟨p', Or.inr hp', hx⟩
    · rintro ⟨p', (rfl | hp'), hx⟩
      · exact Or.inl hx
      · exact Or.inr ⟨p', hp', hx⟩

/-- Weak connectivity in the relation graph: an ID reachable from some member
of `prim` by a chain of membership edges followed in either direction. -/
inductive Connected (g : List (Nat × Nat)) (prim : List Nat) : Nat → Prop where
  | base (p : Nat) : p ∈ prim → Connected g prim p
  | step (x y : Nat) : Connected g prim x → y ∈ nbrs g x → Connected g prim y

theorem bfs_sound (g : List (Nat × Nat)) (prim : List Nat) :
    ∀ q extra, (∀ x ∈ q, Connected g prim x) → (∀ x ∈ extra, Connected g prim x) →
      ∀ x ∈ (bfsAux g prim q extra).extra, Connected g prim x := by
  intro q extra
  induction q, extra using bfsAux.induct g prim with
  | case1 extra =>
    intro _ hextra x hx
    rw [bfsAux] at hx
    exact hextra x hx
  | case2 extra id rest h ih =>
    intro hq hextra x hx
    rw [bfsAux] at hx
    simp only [h, dite_true] at hx
    have hid : Connected g prim id := hq id (List.mem_cons_self _ _)
    refine ih ?_ ?_ x hx
    · intro z hz
      rcases List.mem_append.1 hz with hz' | hz'
      · exact hq z (List.mem_cons_of_mem _ hz')
      · exact Connected.step id z hid hz'
    · intro z hz
      rcases List.mem_cons.1 hz with rfl | hz'
      · exact hid
      · exact hextra z hz'
  | case3 extra id rest h ih =>
    intro hq hextra x hx
    rw [bfsAux] at hx
    simp only [h, dite_false] at hx
    exact ih (fun z hz => hq z (List.mem_cons_of_mem _ hz)) hextra x hx

/-- C1: run once per region after scan 1 with an empty extra relation set,
the relation-network closure computes exactly the weakly-connected component
of the system-relation graph reachable from the primarily included
relations: complete (every connected relation lands in the primary or extra
set), sound (every extra relation is connected), and a fixed point. -/
theorem relation_network_component (g : List (Nat × Nat)) (st : ExtractData)
    (h0 : st.extra_relation_ids = []) :
    (∀ r, Connected g st.relation_ids r →
      idget st.relation_ids r = true ∨ r ∈ (add_relation_network g st).extra_relation_ids) ∧
    (∀ r, r ∈ (add_relation_network g st).extra_relation_ids →
      Connected g st.relation_ids r) ∧
    add_relation_network g (add_relation_network g st) = add_relation_network g st := by
  refine ⟨?_, ?_, ?_⟩
  · intro r hr
    induction hr with
    | base p hp => exact Or.inl (idget_iff.2 hp)
    | step x y hx hy ih =>
      rcases ih with hprim | hextra
      · have hq : y ∈ initialQueue g st.relation_ids :=
          mem_initialQueue.2 ⟨x, idget_iff.1 hprim, hy⟩
        exact bfs_absorb g st.relation_ids _ _ y hq
      · unfold add_relation_network at hextra ⊢
        simp only at hextra ⊢
        rcases bfs_closed g st.relation_ids _ _ x hextra with hold | hcl
        · rw [h0] at hold; cases hold
        · exact hcl y hy
  · intro r hr
    unfold add_relation_network at hr
    simp only at hr
    refine bfs_sound g st.relation_ids _ _ ?_ ?_ r hr
    · intro z hz
      rcases mem_initialQueue.1 hz with ⟨p, hp, hnb⟩
      exact Connected.step p z (Connected.base p hp) hnb
    · rw [h0]; intro z hz; cases hz
  · have hprim : (add_relation_network g st).relation_ids = st.relation_ids := rfl
    unfold add_relation_network
    simp only
    have habs : ∀ z ∈ initialQueue g st.relation_ids,
        idget st.relation_ids z = true ∨
        idget (bfsAux g st.relation_ids (initialQueue g st.relation_ids)
          st.extra_relation_ids).extra z = true := by
      intro z hz
      rcases bfs_absorb g st.relation_ids (initialQueue g st.relation_ids)
        st.extra_relation_ids z hz with h | h
      · exact Or.inl h
      · exact Or.inr (idget_iff.2 h)
    rw [bfs_skip_all g st.relation_ids _ _ habs]

/-- A concrete region state for witnesses: relation 1 primary, all other
sets empty, trivial predicates. -/
def sampleExtract : ExtractData :=
  { contains := fun _ => false
    has_conflicting_tags := fun _ => false
    has_matching_tags := fun _ => false
    node_ids := []
    extra_node_ids := []
    way_ids := []
    extra_way_ids := []
    relation_ids := [1]
    extra_relation_ids := []
    output := [] }

/-- Witness for C1 at the concrete graph 1→2. -/
theorem relation_network_component_witness :
    (∀ r, Connected [(1, 2)] sampleExtract.relation_ids r →
      idget sampleExtract.relation_ids r = true ∨
      r ∈ (add_relation_network [(1, 2)] sampleExtract).extra_relation_ids) ∧
    (∀ r, r ∈ (add_relation_network [(1, 2)] sampleExtract).extra_relation_ids →
      Connected [(1, 2)] sampleExtract.relation_ids r) ∧
    add_relation_network [(1, 2)] (add_relation_network [(1, 2)] sampleExtract) =
      add_relation_network [(1, 2)] sampleExtract :=
  relation_network_component [(1, 2)] sampleExtract rfl

/-- C5 (amended): the BFS loop run by `add_relation_network` terminates (a
finite fuel bound reproduces it exactly), and during one run each relation is
expanded — added to `extra_relation_ids` with its neighbors enqueued — at
most once, because membership in the primary or extra relation set prevents
re-expansion; an ID may be enqueued more than once. -/
theorem network_traversal_terminates (g : List (Nat × Nat)) (st : ExtractData) :
    (∃ fuel, bfsFuel g st.relation_ids fuel (initialQueue g st.relation_ids)
        st.extra_relation_ids =
      some (bfsAux g st.relation_ids (initialQueue g st.relation_ids)
        st.extra_relation_ids)) ∧
    (bfsAux g st.relation_ids (initialQueue g st.relation_ids)
        st.extra_relation_ids).expanded.Nodup ∧
    (∀ x ∈ (bfsAux g st.relation_ids (initialQueue g st.relation_ids)
        st.extra_relation_ids).expanded,
      x ∉ st.extra_relation_ids ∧ idget st.relation_ids x = false) :=
  ⟨bfs_exists_fuel g st.relation_ids _ _,
   bfs_expanded_nodup g st.relation_ids _ _,
   bfs_expanded_fresh g st.relation_ids _ _⟩

/-- Counterexample to C5 as stated: with relations 1 and 2 primary and both
referencing relation 3, the run of `add_relation_network` enqueues ID 3
twice (once while seeding from each primary relation), so "each relation is
enqueued at most once" fails. -/
theorem enqueue_twice_counterexample :
    (networkEnqueueTrace [(1, 3), (2, 3)]
      { sampleExtract with relation_ids := [1, 2] }).count 3 = 2 := by
  have h2 : bfsAux [(1, 3), (2, 3)] [1, 2] (initialQueue [(1, 3), (2, 3)] [1, 2]) [] =
      ⟨[3], [3], [1, 2]⟩ :=
    bfsFuel_sound [(1, 3), (2, 3)] [1, 2] 10 _ _ _ (by decide)
  unfold networkEnqueueTrace
  rw [show ({ sampleExtract with relation_ids := [1, 2] } : ExtractData).relation_ids =
    [1, 2] from rfl]
  rw [show ({ sampleExtract with relation_ids := [1, 2] } : ExtractData).extra_relation_ids =
    [] from rfl]
  rw [h2]
  decide

/-- Whether one member is already accounted for by the region state: a node
member is in the primary or extra node set, a way member in the primary or
extra way set; relation members are always accounted for. -/
def memberCovered (st : ExtractData) (m : Member) : Prop :=
  match m.mtype with
  | ItemType.node => m.ref ∈ st.node_ids ∨ m.ref ∈ st.extra_node_ids
  | ItemType.way => m.ref ∈ st.way_ids ∨ m.ref ∈ st.extra_way_ids
  | ItemType.relation => True

theorem setId_of_mem {s : List Nat} {x : Nat} (h : x ∈ s) : setId s x = s := by
  simp [setId, h]

theorem memberStep_node_ids (st : ExtractData) (m : Member) :
    (memberStep st m).node_ids = st.node_ids := by
  unfold memberStep
  cases m.mtype <;> dsimp only <;> (try split) <;> rfl

theorem memberStep_way_ids (st : ExtractData) (m : Member) :
    (memberStep st m).way_ids = st.way_ids := by
  unfold memberStep
  cases m.mtype <;> dsimp only <;> (try split) <;> rfl

theorem memberStep_extra_node_mono (st : ExtractData) (m : Member) {x : Nat}
    (h : x ∈ st.extra_node_ids) : x ∈ (memberStep st m).extra_node_ids := by
  unfold memberStep
  cases m.mtype <;> dsimp only
  · split
    · exact h
    · exact mem_setId.2 (Or.inr h)
  · split <;> exact h
  · exact h

theorem memberStep_extra_way_mono (st : ExtractData) (m : Member) {x : Nat}
    (h : x ∈ st.extra_way_ids) : x ∈ (memberStep st m).extra_way_ids := by
  unfold memberStep
  cases m.mtype <;> dsimp only
  · split <;> exact h
  · split
    · exact h
    · exact mem_setId.2 (Or.inr h)
  · exact h

theorem memberCovered_mono (st : ExtractData) (m m' : Member)
    (h : memberCovered st m) : memberCovered (memberStep st m') m := by
  obtain ⟨mt, ref⟩ := m
  cases mt
  · rcases h with h | h
    · exact Or.inl (by rw [memberStep_node_ids]; exact h)
    · exact Or.inr (memberStep_extra_node_mono st m' h)
  · rcases h with h | h
    · exact Or.inl (by rw [memberStep_way_ids]; exact h)
    · exact Or.inr (memberStep_extra_way_mono st m' h)
  · trivial

theorem memberStep_covers (st : ExtractData) (m : Member) :
    memberCovered (memberStep st m) m := by
  obtain ⟨mt, ref⟩ := m
  cases mt
  · show memberCovered (memberStep st ⟨ItemType.node, ref⟩) ⟨ItemType.node, ref⟩
    unfold memberStep
    dsimp only
    split
    · exact Or.inl (idget_iff.1 (by assumption))
    · exact Or.inr (mem_setId.2 (Or.inl rfl))
  · show memberCovered (memberStep st ⟨ItemType.way, ref⟩) ⟨ItemType.way, ref⟩
    unfold memberStep
    dsimp only
    split
    · exact Or.inl (idget_iff.1 (by assumption))
    · exact Or.inr (mem_setId.2 (Or.inl rfl))
  · trivial

theorem foldl_memberStep_covers (ms : List Member) :
    ∀ st : ExtractData, ∀ m ∈ ms, memberCovered (ms.foldl memberStep st) m := by
  induction ms with
  | nil => intro st m hm; cases hm
  | cons m' rest ih =>
    intro st m hm
    rcases List.mem_cons.1 hm with rfl | hm'
    · simp only [List.foldl_cons]
      have hbase := memberStep_covers st m
      generalize memberStep st m = st1 at hbase
      clear hm ih
      revert hbase
      induction rest generalizing st1 with
      | nil => intro hbase; exact hbase
      | cons m2 rest2 ih2 =>
        intro hbase
        simp only [List.foldl_cons]
        apply ih2
        exact memberCovered_mono _ _ _ hbase
    · exact ih (memberStep st m') m hm'

theorem memberStep_of_covered {st : ExtractData} {m : Member}
    (h : memberCovered st m) : memberStep st m = st := by
  obtain ⟨mt, ref⟩ := m
  cases mt
  · show memberStep st ⟨ItemType.node, ref⟩ = st
    unfold memberStep
    dsimp only
    rcases h with h | h
    · rw [if_pos (idget_iff.2 h)]
    · by_cases h1 : idget st.node_ids ref = true
      · rw [if_pos h1]
      · rw [if_neg (by simp [h1]), setId_of_mem h]
  · show memberStep st ⟨ItemType.way, ref⟩ = st
    unfold memberStep
    dsimp only
    rcases h with h | h
    · rw [if_pos (idget_iff.2 h)]
    · by_cases h1 : idget st.way_ids ref = true
      · rw [if_pos h1]
      · rw [if_neg (by simp [h1]), setId_of_mem h]
  · rfl

theorem foldl_memberStep_of_covered {ms : List Member} :
    ∀ {st : ExtractData}, (∀ m ∈ ms, memberCovered st m) →
      ms.foldl memberStep st = st := by
  induction ms with
  | nil => intro st _; rfl
  | cons m rest ih =>
    intro st hall
    simp only [List.foldl_cons]
    rw [memberStep_of_covered (hall m (List.mem_cons_self _ _))]
    exact ih (fun m' hm' => hall m' (List.mem_cons_of_mem _ hm'))

/-- C6: the member pull-in operation is idempotent: invoking
`add_relation_members` twice in succession on the same relation yields
exactly the same region state as invoking it once. -/
theorem add_relation_members_idempotent (st : ExtractData) (r : Relation) :
    add_relation_members (add_relation_members st r) r =
      add_relation_members st r := by
  unfold add_relation_members
  exact foldl_memberStep_of_covered (foldl_memberStep_covers r.members st)

/-- Whether a member triggers inclusion in `Pass1::erelation`'s scan: a node
member whose ID is in the primary node set, or a way member whose ID is in
the primary way set. -/
def memberMatches (st : ExtractData) (m : Member) : Bool :=
  match m.mtype with
  | ItemType.node => idget st.node_ids m.ref
  | ItemType.way => idget st.way_ids m.ref
  | ItemType.relation => false

theorem erelationLoop_find (strat : Strategy) (st : ExtractData) (r : Relation) :
    ∀ ms : List Member, erelationLoop strat st r ms =
      match ms.find? (memberMatches st) with
      | none => st
      | some _ =>
        if is_relevant_relation strat r || is_part_of_relevant_relation_system strat r then
          add_relation_members { st with relation_ids := setId st.relation_ids r.id } r
        else { st with relation_ids := setId st.relation_ids r.id } := by
  intro ms
  induction ms with
  | nil => rfl
  | cons m rest ih =>
    obtain ⟨mt, ref⟩ := m
    cases mt
    · show (if idget st.node_ids ref = true then _ else erelationLoop strat st r rest) = _
      by_cases hm : idget st.node_ids ref = true
      · rw [if_pos hm, List.find?_cons_of_pos _ (by simpa [memberMatches] using hm)]
      · rw [if_neg hm, ih, List.find?_cons_of_neg _ (by simpa [memberMatches] using hm)]
    · show (if idget st.way_ids ref = true then _ else erelationLoop strat st r rest) = _
      by_cases hm : idget st.way_ids ref = true
      · rw [if_pos hm, List.find?_cons_of_pos _ (by simpa [memberMatches] using hm)]
      · rw [if_neg hm, ih, List.find?_cons_of_neg _ (by simpa [memberMatches] using hm)]
    · show erelationLoop strat st r rest = _
      rw [ih, List.find?_cons_of_neg _ (by simp [memberMatches])]

/-- C2: per region, `Pass1::erelation` scans the members in order; on the
first node or way member already in the corresponding primary set it marks
the relation primary, pulls in the members exactly when the relation is
individually relevant or part of a relevant system, and stops; with no
matching member the state is unchanged. -/
theorem pass1_erelation_first_match (strat : Strategy) (st : ExtractData)
    (r : Relation) :
    pass1_erelation strat st r =
      (match r.members.find? (memberMatches st) with
      | none => st
      | some _ =>
        if is_relevant_relation strat r || is_part_of_relevant_relation_system strat r then
          add_relation_members { st with relation_ids := setId st.relation_ids r.id } r
        else { st with relation_ids := setId st.relation_ids r.id }) :=
  erelationLoop_find strat st r r.members

theorem mem_addExtraNodes {prim : List Nat} :
    ∀ (refs : List Nat) (extra : List Nat) (x : Nat),
      x ∈ addExtraNodes prim extra refs ↔
        x ∈ extra ∨ (x ∈ refs ∧ idget prim x = false) := by
  intro refs
  induction refs with
  | nil => intro extra x; simp [addExtraNodes]
  | cons n rest ih =>
    intro extra x
    show x ∈ List.foldl _ (if idget prim n then extra else setId extra n) rest ↔ _
    rw [show List.foldl (fun acc m => if idget prim m then acc else setId acc m)
      (if idget prim n then extra else setId extra n) rest =
      addExtraNodes prim (if idget prim n then extra else setId extra n) rest from rfl]
    rw [ih]
    by_cases h : idget prim n = true
    · rw [if_pos h]
      constructor
      · rintro (hx | ⟨hx1, hx2⟩)
        · exact Or.inl hx
        · exact Or.inr ⟨List.mem_cons_of_mem _ hx1, hx2⟩
      · rintro (hx | ⟨hx1, hx2⟩)
        · exact Or.inl hx
        · rcases List.mem_cons.1 hx1 with rfl | hx1'
          · rw [h] at hx2; cases hx2
          · exact Or.inr ⟨hx1', hx2⟩
    · rw [if_neg h]
      rw [Bool.not_eq_true] at h
      constructor
      · rintro (hx | ⟨hx1, hx2⟩)
        · rcases mem_setId.1 hx with rfl | hx'
          · exact Or.inr ⟨List.mem_cons_self _ _, h⟩
          · exact Or.inl hx'
        · exact Or.inr ⟨List.mem_cons_of_mem _ hx1, hx2⟩
      · rintro (hx | ⟨hx1, hx2⟩)
        · exact Or.inl (mem_setId.2 (Or.inr hx))
        · rcases List.mem_cons.1 hx1 with rfl | hx1'
          · exact Or.inl (mem_setId.2 (Or.inl rfl))
          · exact Or.inr ⟨hx1', hx2⟩

theorem ewayFindLoop_any (st : ExtractData) (w : Way) :
    ∀ ms : List Nat, ewayFindLoop st w ms =
      if ms.any (fun n => idget st.node_ids n) then
        { st with way_ids := setId st.way_ids w.id,
                  extra_node_ids := addExtraNodes st.node_ids st.extra_node_ids w.nodes }
      else st := by
  intro ms
  induction ms with
  | nil => rfl
  | cons n rest ih =>
    show (if idget st.node_ids n = true then _ else ewayFindLoop st w rest) = _
    by_cases h : idget st.node_ids n = true
    · rw [if_pos h]
      simp [List.any_cons, h]
    · rw [if_neg h, ih]
      rw [Bool.not_eq_true] at h
      simp [List.any_cons, h]

/-- C3: with `by-first-node` disabled, a way is included iff some referenced
node is in the primary node set; exactly on inclusion every referenced node
not already primary joins the extra node set, and nothing else changes. -/
theorem eway_any_node (strat : Strategy) (st : ExtractData) (w : Way)
    (h : strat.m_by_first_node = false) :
    (idget (pass1_eway strat st w).way_ids w.id =
      (w.nodes.any (fun n => idget st.node_ids n) || idget st.way_ids w.id)) ∧
    (w.nodes.any (fun n => idget st.node_ids n) = true →
      pass1_eway strat st w =
        { st with way_ids := setId st.way_ids w.id,
                  extra_node_ids := addExtraNodes st.node_ids st.extra_node_ids w.nodes }) ∧
    (w.nodes.any (fun n => idget st.node_ids n) = false →
      pass1_eway strat st w = st) ∧
    (∀ x, x ∈ (pass1_eway strat st w).extra_node_ids ↔
      x ∈ st.extra_node_ids ∨ (w.nodes.any (fun n => idget st.node_ids n) = true ∧
        x ∈ w.nodes ∧ idget st.node_ids x = false)) := by
  have hrun : pass1_eway strat st w = ewayFindLoop st w w.nodes := by
    unfold pass1_eway
    rw [h]
    simp
  rw [hrun, ewayFindLoop_any]
  by_cases hany : w.nodes.any (fun n => idget st.node_ids n) = true
  · rw [if_pos hany]
    refine ⟨?_, ?_, ?_, ?_⟩
    · simp [hany, idget_iff, mem_setId]
    · intro _; rfl
    · intro hc; rw [hany] at hc; cases hc
    · intro x
      show x ∈ addExtraNodes st.node_ids st.extra_node_ids w.nodes ↔ _
      rw [mem_addExtraNodes]
      simp [hany]
  · rw [if_neg hany]
    rw [Bool.not_eq_true] at hany
    refine ⟨?_, ?_, ?_, ?_⟩
    · simp [hany]
    · intro hc; rw [hany] at hc; cases hc
    · intro _; rfl
    · intro x
      simp [hany]

/-- C4: with `by-first-node` enabled, a way is included iff (its first node
reference is primary and its tags are not conflicting) or its tags are
matching; exactly on inclusion every referenced node not already primary
joins the extra node set. -/
theorem eway_by_first_node (strat : Strategy) (st : ExtractData) (w : Way)
    (h : strat.m_by_first_node = true) (hne : w.nodes ≠ []) :
    (((idget st.node_ids (w.nodes.head hne) && !(st.has_conflicting_tags w.tags)) ||
        st.has_matching_tags w.tags) = true →
      pass1_eway strat st w =
        { st with way_ids := setId st.way_ids w.id,
                  extra_node_ids := addExtraNodes st.node_ids st.extra_node_ids w.nodes }) ∧
    (((idget st.node_ids (w.nodes.head hne) && !(st.has_conflicting_tags w.tags)) ||
        st.has_matching_tags w.tags) = false →
      pass1_eway strat st w = st) ∧
    (idget (pass1_eway strat st w).way_ids w.id =
      (((idget st.node_ids (w.nodes.head hne) && !(st.has_conflicting_tags w.tags)) ||
        st.has_matching_tags w.tags) || idget st.way_ids w.id)) ∧
    (∀ x, x ∈ (pass1_eway strat st w).extra_node_ids ↔
      x ∈ st.extra_node_ids ∨
        (((idget st.node_ids (w.nodes.head hne) && !(st.has_conflicting_tags w.tags)) ||
          st.has_matching_tags w.tags) = true ∧
         x ∈ w.nodes ∧ idget st.node_ids x = false)) := by
  have hrun : pass1_eway strat st w =
      (if (idget st.node_ids (w.nodes.head hne) && !(st.has_conflicting_tags w.tags)) ||
          st.has_matching_tags w.tags then
        { st with way_ids := setId st.way_ids w.id,
                  extra_node_ids := addExtraNodes st.node_ids st.extra_node_ids w.nodes }
      else st) := by
    unfold pass1_eway
    rw [h]
    simp only [if_true]
    rw [List.head?_eq_head hne]
  rw [hrun]
  by_cases hc : ((idget st.node_ids (w.nodes.head hne) &&
      !(st.has_conflicting_tags w.tags)) || st.has_matching_tags w.tags) = true
  · rw [if_pos hc]
    refine ⟨?_, ?_, ?_, ?_⟩
    · intro _; rfl
    · intro hc2; rw [hc] at hc2; cases hc2
    · simp [hc, idget_iff, mem_setId]
    · intro x
      show x ∈ addExtraNodes st.node_ids st.extra_node_ids w.nodes ↔ _
      rw [mem_addExtraNodes]
      simp [hc]
  · rw [if_neg hc]
    rw [Bool.not_eq_true] at hc
    refine ⟨?_, ?_, ?_, ?_⟩
    · intro hc2; rw [hc] at hc2; cases hc2
    · intro _; rfl
    · simp [hc]
    · intro x
      simp [hc]

/-- A strategy configuration with the `by-first-node` heuristic disabled. -/
def sampleStrategyOff : Strategy :=
  { m_relation_filter := []
    m_relation_system_filter := []
    m_by_first_node := false }

/-- A strategy configuration with the `by-first-node` heuristic enabled. -/
def sampleStrategyOn : Strategy :=
  { m_relation_filter := []
    m_relation_system_filter := []
    m_by_first_node := true }

/-- A way referencing nodes 5 and 6. -/
def sampleWay : Way :=
  { id := 10
    nodes := [5, 6]
    tags := [] }

/-- A region state whose primary node set holds node 5. -/
def sampleNodeState : ExtractData :=
  { sampleExtract with node_ids := [5] }

theorem sampleWay_nodes_ne : sampleWay.nodes ≠ [] := by
  unfold sampleWay
  simp

/-- Witness for C3 at a concrete strategy, state and way. -/
theorem eway_any_node_witness :
    (idget (pass1_eway sampleStrategyOff sampleNodeState sampleWay).way_ids sampleWay.id =
      (sampleWay.nodes.any (fun n => idget sampleNodeState.node_ids n) ||
        idget sampleNodeState.way_ids sampleWay.id)) ∧
    (sampleWay.nodes.any (fun n => idget sampleNodeState.node_ids n) = true →
      pass1_eway sampleStrategyOff sampleNodeState sampleWay =
        { sampleNodeState with
            way_ids := setId sampleNodeState.way_ids sampleWay.id,
            extra_node_ids := addExtraNodes sampleNodeState.node_ids
              sampleNodeState.extra_node_ids sampleWay.nodes }) ∧
    (sampleWay.nodes.any (fun n => idget sampleNodeState.node_ids n) = false →
      pass1_eway sampleStrategyOff sampleNodeState sampleWay = sampleNodeState) ∧
    (∀ x, x ∈ (pass1_eway sampleStrategyOff sampleNodeState sampleWay).extra_node_ids ↔
      x ∈ sampleNodeState.extra_node_ids ∨
        (sampleWay.nodes.any (fun n => idget sampleNodeState.node_ids n) = true ∧
          x ∈ sampleWay.nodes ∧ idget sampleNodeState.node_ids x = false)) :=
  eway_any_node sampleStrategyOff sampleNodeState sampleWay rfl

/-- Witness for C4 at a concrete strategy, state and way. -/
theorem eway_by_first_node_witness :
    (((idget sampleNodeState.node_ids (sampleWay.nodes.head sampleWay_nodes_ne) &&
        !(sampleNodeState.has_conflicting_tags sampleWay.tags)) ||
        sampleNodeState.has_matching_tags sampleWay.tags) = true →
      pass1_eway sampleStrategyOn sampleNodeState sampleWay =
        { sampleNodeState with
            way_ids := setId sampleNodeState.way_ids sampleWay.id,
            extra_node_ids := addExtraNodes sampleNodeState.node_ids
              sampleNodeState.extra_node_ids sampleWay.nodes }) ∧
    (((idget sampleNodeState.node_ids (sampleWay.nodes.head sampleWay_nodes_ne) &&
        !(sampleNodeState.has_conflicting_tags sampleWay.tags)) ||
        sampleNodeState.has_matching_tags sampleWay.tags) = false →
      pass1_eway sampleStrategyOn sampleNodeState sampleWay = sampleNodeState) ∧
    (idget (pass1_eway sampleStrategyOn sampleNodeState sampleWay).way_ids sampleWay.id =
      (((idget sampleNodeState.node_ids (sampleWay.nodes.head sampleWay_nodes_ne) &&
        !(sampleNodeState.has_conflicting_tags sampleWay.tags)) ||
        sampleNodeState.has_matching_tags sampleWay.tags) ||
        idget sampleNodeState.way_ids sampleWay.id)) ∧
    (∀ x, x ∈ (pass1_eway sampleStrategyOn sampleNodeState sampleWay).extra_node_ids ↔
      x ∈ sampleNodeState.extra_node_ids ∨
        (((idget sampleNodeState.node_ids (sampleWay.nodes.head sampleWay_nodes_ne) &&
          !(sampleNodeState.has_conflicting_tags sampleWay.tags)) ||
          sampleNodeState.has_matching_tags sampleWay.tags) = true ∧
         x ∈ sampleWay.nodes ∧ idget sampleNodeState.node_ids x = false)) :=
  eway_by_first_node sampleStrategyOn sampleNodeState sampleWay rfl sampleWay_nodes_ne

theorem pass4_selected_output (st : ExtractData) (o : List Element) :
    pass4_selected { st with output := o } = pass4_selected st := by
  funext e
  cases e <;> rfl

/-- C7: scan 4 writes, for a region, exactly the elements whose ID is in the
primary or extra set of their type, in input order, and mutates nothing else
in the region state. -/
theorem pass4_writes_union (st : ExtractData) (input : List Element) :
    pass4_run st input =
      { st with output := st.output ++ input.filter (pass4_selected st) } := by
  induction input generalizing st with
  | nil =>
    show st = { st with output := st.output ++ [] }
    simp
  | cons el rest ih =>
    show pass4_run (pass4_step st el) rest = _
    rw [ih]
    unfold pass4_step
    by_cases hsel : pass4_selected st el = true
    · rw [if_pos hsel, List.filter_cons_of_pos hsel]
      simp [List.concat_eq_append, pass4_selected_output]
    · rw [if_neg hsel, List.filter_cons_of_neg (by simpa using hsel)]

/-- C8: with an empty input file name (standard input), the strategy's run
fails with the unrecoverable STDIN error before pass 1, leaving every
region's state untouched and writing nothing. -/
theorem run_stdin_error (filename : String) (strat : Strategy)
    (extracts : List ExtractData) (input : InputData) (h : filename = "") :
    runStrategy filename strat extracts input =
      (some "Can not read from STDIN when using 'smart_custom' strategy.", extracts) := by
  unfold runStrategy
  rw [if_pos h]

/-- An empty input dataset. -/
def emptyInput : InputData :=
  { nodes := []
    ways := []
    relations := [] }

/-- Witness for C8 at a concrete strategy, extract list and input. -/
theorem run_stdin_error_witness :
    runStrategy "" sampleStrategyOff [sampleExtract] emptyInput =
      (some "Can not read from STDIN when using 'smart_custom' strategy.",
        [sampleExtract]) :=
  run_stdin_error "" sampleStrategyOff [sampleExtract] emptyInput rfl

theorem memberStep_frames (st : ExtractData) (m : Member) :
    (memberStep st m).node_ids = st.node_ids ∧
    (memberStep st m).way_ids = st.way_ids ∧
    (memberStep st m).relation_ids = st.relation_ids ∧
    (memberStep st m).extra_relation_ids = st.extra_relation_ids ∧
    (memberStep st m).output = st.output := by
  unfold memberStep
  obtain ⟨mt, ref⟩ := m
  cases mt <;> dsimp only <;> (try split) <;> exact ⟨rfl, rfl, rfl, rfl, rfl⟩

theorem add_relation_members_frames (r : Relation) :
    ∀ st : ExtractData,
      (add_relation_members st r).node_ids = st.node_ids ∧
      (add_relation_members st r).way_ids = st.way_ids ∧
      (add_relation_members st r).relation_ids = st.relation_ids ∧
      (add_relation_members st r).extra_relation_ids = st.extra_relation_ids ∧
      (add_relation_members st r).output = st.output := by
  unfold add_relation_members
  generalize r.members = ms
  induction ms with
  | nil => intro st; exact ⟨rfl, rfl, rfl, rfl, rfl⟩
  | cons m rest ih =>
    intro st
    simp only [List.foldl_cons]
    rcases ih (memberStep st m) with ⟨h1, h2, h3, h4, h5⟩
    rcases memberStep_frames st m with ⟨g1, g2, g3, g4, g5⟩
    exact ⟨h1.trans g1, h2.trans g2, h3.trans g3, h4.trans g4, h5.trans g5⟩

/-- C10: after scan 1 the primary sets are never written again: the closure
mutates only `extra_relation_ids`, a scan-2 callback mutates only
`extra_node_ids` and `extra_way_ids`, a scan-3 callback mutates only
`extra_node_ids`, and a scan-4 callback mutates no membership set. -/
theorem primary_frozen_after_scan1 (g : List (Nat × Nat)) (strat : Strategy)
    (st : ExtractData) (r : Relation) (w : Way) (el : Element) :
    ((add_relation_network g st).node_ids = st.node_ids ∧
     (add_relation_network g st).extra_node_ids = st.extra_node_ids ∧
     (add_relation_network g st).way_ids = st.way_ids ∧
     (add_relation_network g st).extra_way_ids = st.extra_way_ids ∧
     (add_relation_network g st).relation_ids = st.relation_ids ∧
     (add_relation_network g st).output = st.output) ∧
    ((pass2_erelation strat st r).node_ids = st.node_ids ∧
     (pass2_erelation strat st r).way_ids = st.way_ids ∧
     (pass2_erelation strat st r).relation_ids = st.relation_ids ∧
     (pass2_erelation strat st r).extra_relation_ids = st.extra_relation_ids ∧
     (pass2_erelation strat st r).output = st.output) ∧
    ((pass3_eway st w).node_ids = st.node_ids ∧
     (pass3_eway st w).way_ids = st.way_ids ∧
     (pass3_eway st w).extra_way_ids = st.extra_way_ids ∧
     (pass3_eway st w).relation_ids = st.relation_ids ∧
     (pass3_eway st w).extra_relation_ids = st.extra_relation_ids ∧
     (pass3_eway st w).output = st.output) ∧
    ((pass4_step st el).node_ids = st.node_ids ∧
     (pass4_step st el).extra_node_ids = st.extra_node_ids ∧
     (pass4_step st el).way_ids = st.way_ids ∧
     (pass4_step st el).extra_way_ids = st.extra_way_ids ∧
     (pass4_step st el).relation_ids = st.relation_ids ∧
     (pass4_step st el).extra_relation_ids = st.extra_relation_ids) := by
  refine ⟨⟨rfl, rfl, rfl, rfl, rfl, rfl⟩, ?_, ?_, ?_⟩
  · unfold pass2_erelation
    split
    · exact (fun h => ⟨h.1, h.2.1, h.2.2.1, h.2.2.2.1, h.2.2.2.2⟩)
        (add_relation_members_frames r st)
    · exact ⟨rfl, rfl, rfl, rfl, rfl⟩
  · unfold pass3_eway
    split
    · exact ⟨rfl, rfl, rfl, rfl, rfl, rfl⟩
    · exact ⟨rfl, rfl, rfl, rfl, rfl, rfl⟩
  · unfold pass4_step
    split
    · exact ⟨rfl, rfl, rfl, rfl, rfl, rfl⟩
    · exact ⟨rfl, rfl, rfl, rfl, rfl, rfl⟩

/-- The extra node set never shadows the primary node set. -/
def nodeDisj (st : ExtractData) : Prop :=
  ∀ x ∈ st.extra_node_ids, x ∉ st.node_ids

/-- The extra way set never shadows the primary way set. -/
def wayDisj (st : ExtractData) : Prop :=
  ∀ x ∈ st.extra_way_ids, x ∉ st.way_ids

/-- The extra relation set never shadows the primary relation set. -/
def relDisj (st : ExtractData) : Prop :=
  ∀ x ∈ st.extra_relation_ids, x ∉ st.relation_ids

/-- All three extra sets are disjoint from their primary sets. -/
def allDisj (st : ExtractData) : Prop :=
  nodeDisj st ∧ wayDisj st ∧ relDisj st

theorem foldl_pres {α : Type} (P : ExtractData → Prop) (f : ExtractData → α → ExtractData)
    (hf : ∀ st a, P st → P (f st a)) :
    ∀ (l : List α) (st : ExtractData), P st → P (l.foldl f st) := by
  intro l
  induction l with
  | nil => intro st h; exact h
  | cons a rest ih => intro st h; exact ih _ (hf st a h)

theorem disj_of_empty_extra_node {st : ExtractData} (h : st.extra_node_ids = []) :
    nodeDisj st := by
  intro x hx
  rw [h] at hx
  cases hx

theorem disj_of_empty_extra_way {st : ExtractData} (h : st.extra_way_ids = []) :
    wayDisj st := by
  intro x hx
  rw [h] at hx
  cases hx

theorem disj_of_empty_extra_rel {st : ExtractData} (h : st.extra_relation_ids = []) :
    relDisj st := by
  intro x hx
  rw [h] at hx
  cases hx

theorem addExtraNodes_disj {st : ExtractData} (h : nodeDisj st) {refs : List Nat} :
    ∀ x ∈ addExtraNodes st.node_ids st.extra_node_ids refs, x ∉ st.node_ids := by
  intro x hx
  rcases (mem_addExtraNodes refs st.extra_node_ids x).1 hx with hx' | ⟨_, hx2⟩
  · exact h x hx'
  · intro hc
    rw [idget_iff.2 hc] at hx2
    cases hx2

theorem memberStep_pres_node (st : ExtractData) (m : Member) (h : nodeDisj st) :
    nodeDisj (memberStep st m) := by
  obtain ⟨mt, ref⟩ := m
  cases mt
  · show nodeDisj (if idget st.node_ids ref then st
      else { st with extra_node_ids := setId st.extra_node_ids ref })
    split
    · exact h
    · intro x hx
      show x ∉ st.node_ids
      rcases mem_setId.1 hx with rfl | hx'
      · intro hc
        have := idget_iff.2 hc
        simp_all
      · exact h x hx'
  · show nodeDisj (if idget st.way_ids ref then st
      else { st with extra_way_ids := setId st.extra_way_ids ref })
    split
    · exact h
    · exact h
  · exact h

theorem memberStep_pres_way (st : ExtractData) (m : Member) (h : wayDisj st) :
    wayDisj (memberStep st m) := by
  obtain ⟨mt, ref⟩ := m
  cases mt
  · show wayDisj (if idget st.node_ids ref then st
      else { st with extra_node_ids := setId st.extra_node_ids ref })
    split
    · exact h
    · exact h
  · show wayDisj (if idget st.way_ids ref then st
      else { st with extra_way_ids := setId st.extra_way_ids ref })
    split
    · exact h
    · intro x hx
      show x ∉ st.way_ids
      rcases mem_setId.1 hx with rfl | hx'
      · intro hc
        have := idget_iff.2 hc
        simp_all
      · exact h x hx'
  · exact h

theorem arm_pres_node (st : ExtractData) (r : Relation) (h : nodeDisj st) :
    nodeDisj (add_relation_members st r) :=
  foldl_pres nodeDisj memberStep memberStep_pres_node r.members st h

theorem arm_pres_way (st : ExtractData) (r : Relation) (h : wayDisj st) :
    wayDisj (add_relation_members st r) :=
  foldl_pres wayDisj memberStep memberStep_pres_way r.members st h

theorem eway_pres_node (strat : Strategy) (st : ExtractData) (w : Way)
    (h : nodeDisj st) : nodeDisj (pass1_eway strat st w) := by
  unfold pass1_eway
  split
  · split
    · exact h
    · split
      · intro x hx
        exact addExtraNodes_disj h x hx
      · exact h
  · rw [ewayFindLoop_any]
    split
    · intro x hx
      exact addExtraNodes_disj h x hx
    · exact h

theorem erelation_pres_node (strat : Strategy) (st : ExtractData) (r : Relation)
    (h : nodeDisj st) : nodeDisj (pass1_erelation strat st r) := by
  unfold pass1_erelation
  rw [erelationLoop_find]
  split
  · exact h
  · split
    · exact arm_pres_node _ r h
    · exact h

theorem erelation_pres_way (strat : Strategy) (st : ExtractData) (r : Relation)
    (h : wayDisj st) : wayDisj (pass1_erelation strat st r) := by
  unfold pass1_erelation
  rw [erelationLoop_find]
  split
  · exact h
  · split
    · exact arm_pres_way _ r h
    · exact h

theorem network_pres_rel (g : List (Nat × Nat)) (st : ExtractData)
    (h : relDisj st) : relDisj (add_relation_network g st) := by
  intro x hx
  show x ∉ st.relation_ids
  have he := bfs_extra_eq g st.relation_ids (initialQueue g st.relation_ids)
    st.extra_relation_ids
  have hx' : x ∈ (bfsAux g st.relation_ids (initialQueue g st.relation_ids)
      st.extra_relation_ids).extra := hx
  rw [he] at hx'
  rcases List.mem_append.1 hx' with hxx | hxx
  · rcases bfs_expanded_fresh g st.relation_ids _ _ x (List.mem_reverse.1 hxx) with ⟨_, h2⟩
    intro hc
    rw [idget_iff.2 hc] at h2
    cases h2
  · exact h x hxx

theorem pass2_pres_node (strat : Strategy) (st : ExtractData) (r : Relation)
    (h : nodeDisj st) : nodeDisj (pass2_erelation strat st r) := by
  unfold pass2_erelation
  split
  · exact arm_pres_node st r h
  · exact h

theorem pass2_pres_way (strat : Strategy) (st : ExtractData) (r : Relation)
    (h : wayDisj st) : wayDisj (pass2_erelation strat st r) := by
  unfold pass2_erelation
  split
  · exact arm_pres_way st r h
  · exact h

theorem pass2_pres_rel (strat : Strategy) (st : ExtractData) (r : Relation)
    (h : relDisj st) : relDisj (pass2_erelation strat st r) := by
  unfold pass2_erelation
  split
  · intro x hx
    rcases add_relation_members_frames r st with ⟨_, _, h3, h4, _⟩
    rw [h4] at hx
    rw [h3]
    exact h x hx
  · exact h

theorem pass3_pres_node (st : ExtractData) (w : Way) (h : nodeDisj st) :
    nodeDisj (pass3_eway st w) := by
  unfold pass3_eway
  split
  · intro x hx
    exact addExtraNodes_disj h x hx
  · exact h

theorem pass3_pres_way (st : ExtractData) (w : Way) (h : wayDisj st) :
    wayDisj (pass3_eway st w) := by
  unfold pass3_eway
  split
  · exact h
  · exact h

theorem pass3_pres_rel (st : ExtractData) (w : Way) (h : relDisj st) :
    relDisj (pass3_eway st w) := by
  unfold pass3_eway
  split
  · exact h
  · exact h

theorem pass4_pres_all (st : ExtractData) (el : Element) (h : allDisj st) :
    allDisj (pass4_step st el) := by
  unfold pass4_step
  split
  · exact h
  · exact h

theorem enode_extras (st : ExtractData) (n : Node) :
    (pass1_enode st n).extra_node_ids = st.extra_node_ids ∧
    (pass1_enode st n).extra_way_ids = st.extra_way_ids ∧
    (pass1_enode st n).extra_relation_ids = st.extra_relation_ids := by
  unfold pass1_enode
  split <;> exact ⟨rfl, rfl, rfl⟩

theorem eway_frame (strat : Strategy) (st : ExtractData) (w : Way) :
    (pass1_eway strat st w).extra_way_ids = st.extra_way_ids ∧
    (pass1_eway strat st w).extra_relation_ids = st.extra_relation_ids := by
  unfold pass1_eway
  split
  · split
    · exact ⟨rfl, rfl⟩
    · split <;> exact ⟨rfl, rfl⟩
  · rw [ewayFindLoop_any]
    split <;> exact ⟨rfl, rfl⟩

theorem erelation_frame (strat : Strategy) (st : ExtractData) (r : Relation) :
    (pass1_erelation strat st r).extra_relation_ids = st.extra_relation_ids := by
  unfold pass1_erelation
  rw [erelationLoop_find]
  split
  · rfl
  · split
    · rcases add_relation_members_frames r
        { st with relation_ids := setId st.relation_ids r.id } with ⟨_, _, _, h4, _⟩
      exact h4
    · rfl

theorem scan1_nodes_extras (input : InputData) (st : ExtractData) :
    (scan1_nodes st input).extra_node_ids = st.extra_node_ids ∧
    (scan1_nodes st input).extra_way_ids = st.extra_way_ids ∧
    (scan1_nodes st input).extra_relation_ids = st.extra_relation_ids := by
  unfold scan1_nodes
  refine foldl_pres (fun s => s.extra_node_ids = st.extra_node_ids ∧
    s.extra_way_ids = st.extra_way_ids ∧
    s.extra_relation_ids = st.extra_relation_ids) pass1_enode ?_ input.nodes st
    ⟨rfl, rfl, rfl⟩
  intro s n h
  rcases h with ⟨h1, h2, h3⟩
  rcases enode_extras s n with ⟨g1, g2, g3⟩
  exact ⟨g1.trans h1, g2.trans h2, g3.trans h3⟩

theorem scan1_ways_extras (strat : Strategy) (input : InputData) (st : ExtractData) :
    (scan1_ways strat st input).extra_way_ids = st.extra_way_ids ∧
    (scan1_ways strat st input).extra_relation_ids = st.extra_relation_ids := by
  unfold scan1_ways
  refine foldl_pres (fun s => s.extra_way_ids = st.extra_way_ids ∧
    s.extra_relation_ids = st.extra_relation_ids) (pass1_eway strat) ?_ input.ways st
    ⟨rfl, rfl⟩
  intro s w h
  rcases h with ⟨h1, h2⟩
  rcases eway_frame strat s w with ⟨g1, g2⟩
  exact ⟨g1.trans h1, g2.trans h2⟩

theorem scan1_relations_extra_rel (strat : Strategy) (input : InputData)
    (st : ExtractData) :
    (scan1_relations strat st input).extra_relation_ids = st.extra_relation_ids := by
  unfold scan1_relations
  refine foldl_pres (fun s => s.extra_relation_ids = st.extra_relation_ids)
    (pass1_erelation strat) ?_ input.relations st rfl
  intro s r h
  exact (erelation_frame strat s r).trans h

/-- C9: every operation that runs after the corresponding primary set is
final adds an ID to an extra set only after checking it is absent from the
matching primary set, so those extra sets stay disjoint from their primary
sets: each such operation preserves disjointness, and in a run started from
empty extra sets the disjointness of each type holds from the phase at which
that type's primary set is final (nodes: after scan 1's node phase; ways:
after scan 1's way phase; relations: after scan 1) through scan 4. -/
theorem extra_primary_disjoint (strat : Strategy) (g : List (Nat × Nat))
    (st st0 : ExtractData) (w : Way) (r : Relation) (el : Element) (input : InputData)
    (hn : nodeDisj st) (hw : wayDisj st) (hrel : relDisj st)
    (he1 : st0.extra_node_ids = []) (he2 : st0.extra_way_ids = [])
    (he3 : st0.extra_relation_ids = []) :
    nodeDisj (pass1_eway strat st w) ∧
    (nodeDisj (pass1_erelation strat st r) ∧ wayDisj (pass1_erelation strat st r)) ∧
    (nodeDisj (add_relation_members st r) ∧ wayDisj (add_relation_members st r)) ∧
    allDisj (add_relation_network g st) ∧
    allDisj (pass2_erelation strat st r) ∧
    allDisj (pass3_eway st w) ∧
    allDisj (pass4_step st el) ∧
    (nodeDisj (scan1_ways strat (scan1_nodes st0 input) input) ∧
     (nodeDisj (pass1_run strat input st0) ∧ wayDisj (pass1_run strat input st0)) ∧
     allDisj (add_relation_network (relGraphOf strat input.relations)
        (pass1_run strat input st0)) ∧
     allDisj (pass2_run strat input (add_relation_network
        (relGraphOf strat input.relations) (pass1_run strat input st0))) ∧
     allDisj (pass3_run input (pass2_run strat input (add_relation_network
        (relGraphOf strat input.relations) (pass1_run strat input st0)))) ∧
     allDisj (pass4_run (pass3_run input (pass2_run strat input (add_relation_network
        (relGraphOf strat input.relations) (pass1_run strat input st0))))
        (elementsOf input))) := by
  have hpass2all : ∀ s : ExtractData, allDisj s → ∀ rr : Relation,
      allDisj (pass2_erelation strat s rr) := by
    intro s hs rr
    exact ⟨pass2_pres_node strat s rr hs.1, pass2_pres_way strat s rr hs.2.1,
      pass2_pres_rel strat s rr hs.2.2⟩
  have hpass3all : ∀ s : ExtractData, allDisj s → ∀ ww : Way,
      allDisj (pass3_eway s ww) := by
    intro s hs ww
    exact ⟨pass3_pres_node s ww hs.1, pass3_pres_way s ww hs.2.1,
      pass3_pres_rel s ww hs.2.2⟩
  refine ⟨eway_pres_node strat st w hn,
    ⟨erelation_pres_node strat st r hn, erelation_pres_way strat st r hw⟩,
    ⟨arm_pres_node st r hn, arm_pres_way st r hw⟩,
    ⟨hn, hw, network_pres_rel g st hrel⟩,
    ⟨pass2_pres_node strat st r hn, pass2_pres_way strat st r hw,
      pass2_pres_rel strat st r hrel⟩,
    ⟨pass3_pres_node st w hn, pass3_pres_way st w hw, pass3_pres_rel st w hrel⟩,
    pass4_pres_all st el ⟨hn, hw, hrel⟩, ?_⟩
  rcases scan1_nodes_extras input st0 with ⟨k1, k2, k3⟩
  have hn1 : nodeDisj (scan1_nodes st0 input) :=
    disj_of_empty_extra_node (k1.trans he1)
  have hn2 : nodeDisj (scan1_ways strat (scan1_nodes st0 input) input) :=
    foldl_pres nodeDisj (pass1_eway strat)
      (fun s ww hh => eway_pres_node strat s ww hh) input.ways _ hn1
  rcases scan1_ways_extras strat input (scan1_nodes st0 input) with ⟨l1, l2⟩
  have hw2 : wayDisj (scan1_ways strat (scan1_nodes st0 input) input) :=
    disj_of_empty_extra_way (l1.trans (k2.trans he2))
  have hn3 : nodeDisj (pass1_run strat input st0) :=
    foldl_pres nodeDisj (pass1_erelation strat)
      (fun s rr hh => erelation_pres_node strat s rr hh) input.relations _ hn2
  have hw3 : wayDisj (pass1_run strat input st0) :=
    foldl_pres wayDisj (pass1_erelation strat)
      (fun s rr hh => erelation_pres_way strat s rr hh) input.relations _ hw2
  have hr3 : relDisj (pass1_run strat input st0) :=
    disj_of_empty_extra_rel
      ((scan1_relations_extra_rel strat input _).trans (l2.trans (k3.trans he3)))
  have hall4 : allDisj (add_relation_network (relGraphOf strat input.relations)
      (pass1_run strat input st0)) :=
    ⟨hn3, hw3, network_pres_rel _ _ hr3⟩
  have hall5 : allDisj (pass2_run strat input (add_relation_network
      (relGraphOf strat input.relations) (pass1_run strat input st0))) :=
    foldl_pres allDisj (pass2_erelation strat)
      (fun s rr hh => hpass2all s hh rr) input.relations _ hall4
  have hall6 : allDisj (pass3_run input (pass2_run strat input (add_relation_network
      (relGraphOf strat input.relations) (pass1_run strat input st0)))) :=
    foldl_pres allDisj pass3_eway
      (fun s ww hh => hpass3all s hh ww) input.ways _ hall5
  have hall7 : allDisj (pass4_run (pass3_run input (pass2_run strat input
      (add_relation_network (relGraphOf strat input.relations)
        (pass1_run strat input st0)))) (elementsOf input)) :=
    foldl_pres allDisj pass4_step
      (fun s ee hh => pass4_pres_all s ee hh) (elementsOf input) _ hall6
  exact ⟨hn2, ⟨hn3, hw3⟩, hall4, hall5, hall6, hall7⟩

/-- Witness for C9 at a concrete strategy, states, way, relation, element and
input. -/
theorem extra_primary_disjoint_witness :
    nodeDisj (pass1_eway sampleStrategyOff sampleNodeState sampleWay) :=
  (extra_primary_disjoint sampleStrategyOff [] sampleNodeState sampleExtract
    sampleWay ⟨7, [], []⟩ (Element.way sampleWay) emptyInput
    (disj_of_empty_extra_node rfl) (disj_of_empty_extra_way rfl)
    (disj_of_empty_extra_rel rfl) rfl rfl rfl).1

end StrategySmartCustom
